/-
Verification of the GiniNet preprocessing core (dataset fingerprinting and
geometry transforms) against its natural-language specification.

The Python sources are shallowly embedded:
  * numeric scalars (spacings, intensities) are modelled as rationals,
  * 3-D arrays are modelled as functions on natural-number index triples
    together with an explicit shape,
  * code paths that raise a Python exception are modelled with `Except`
    (or `Option` for `numpy` reductions over empty index sets),
  * Python `while True` loops are modelled with an explicit fuel parameter
    or as iteration of a step function.
-/
import Mathlib

namespace GiniNet

/-! ## Shared numeric helpers (Python / numpy primitives) -/

/-- Truncation toward zero, the semantics of `numpy`'s `.astype(int)`. -/
def pytrunc (q : ℚ) : ℤ :=
  if 0 ≤ q then ⌊q⌋ else ⌈q⌉

/-- Round half to even, the semantics of `numpy.rint`. -/
def rint (q : ℚ) : ℤ :=
  let f := ⌊q⌋
  let r := q - f
  if r < 1 / 2 then f
  else if 1 / 2 < r then f + 1
  else if 2 ∣ f then f else f + 1

/-- Median of a list of rationals, the semantics of `statistics.median`:
sort, take the middle element (odd length) or the mean of the two middle
elements (even length).  Meaningful for non-empty lists. -/
def pymedian (l : List ℚ) : ℚ :=
  let s := l.insertionSort (· ≤ ·)
  if l.length % 2 = 1 then s.getD (l.length / 2) 0
  else (s.getD (l.length / 2 - 1) 0 + s.getD (l.length / 2) 0) / 2

/-- 10th percentile with linear interpolation, the semantics of
`numpy.percentile(a, 10)` (default interpolation).  Meaningful for
non-empty lists. -/
def percentile10 (l : List ℚ) : ℚ :=
  let s := l.insertionSort (· ≤ ·)
  let v : ℚ := ((l.length - 1 : ℕ) : ℚ) / 10
  let lo := (⌊v⌋).toNat
  s.getD lo 0 + (v - lo) * (s.getD (lo + 1) 0 - s.getD lo 0)

/-- Maximum entry of a 3-vector (`np.max` over a length-3 spacing). -/
def pymax3 (s : Fin 3 → ℚ) : ℚ := max (s 0) (max (s 1) (s 2))

/-- Minimum entry of a 3-vector (`np.min` over a length-3 spacing). -/
def pymin3 (s : Fin 3 → ℚ) : ℚ := min (s 0) (min (s 1) (s 2))

/-- Index of the first maximal entry of a 3-vector (`np.argmax`). -/
def argmax3 (t : Fin 3 → ℚ) : Fin 3 :=
  if t 1 ≤ t 0 ∧ t 2 ≤ t 0 then 0
  else if t 2 ≤ t 1 then 1 else 2

/-! ## `FingerPrint.check_anisotrophy` and `Resamplingd.check_anisotrophy`

Source (`src/transforms.py` lines 145-149, identically
`src/interactivenet/preprocessing/fingerprinting.py` lines 149-153):

    def check_anisotrophy(self, spacing):
        def check(spacing):
            return np.max(spacing) / np.min(spacing) >= 3
        return check(spacing) or check(self.target_spacing)

`self.target_spacing` is the instance's target spacing, set at
construction time in `Resamplingd`. -/

/-- Inner `check` of `check_anisotrophy`: `np.max(spacing) / np.min(spacing) >= 3`. -/
def anisoCheck (spacing : Fin 3 → ℚ) : Prop :=
  3 ≤ pymax3 spacing / pymin3 spacing

instance (spacing : Fin 3 → ℚ) : Decidable (anisoCheck spacing) := by
  unfold anisoCheck; infer_instance

/-- The method `check_anisotrophy(spacing)` of an instance whose
`self.target_spacing` is `target`: `check(spacing) or check(self.target_spacing)`. -/
def check_anisotrophy (target spacing : Fin 3 → ℚ) : Prop :=
  anisoCheck spacing ∨ anisoCheck target

instance (target spacing : Fin 3 → ℚ) : Decidable (check_anisotrophy target spacing) := by
  unfold check_anisotrophy; infer_instance

/-! ## `FingerPrint.get_resampling_strategy`
(`src/interactivenet/preprocessing/fingerprinting.py` lines 166-175)

    def get_resampling_strategy(self, spacing):
        target_spacing = list(self.calculate_median(spacing))
        strategy = "Median"
        if self.anisotrophy.count(True) >= len(self.anisotrophy) / 2:
            index_max = np.argmax(target_spacing)
            target_spacing[index_max] = np.percentile(list(zip(*spacing))[index_max], 10)
            strategy = "Anisotropic"
        return tuple(target_spacing), strategy

`self.anisotrophy` is the list of per-case anisotropy flags. -/

/-- Per-axis median over a list of 3-vectors (`FingerPrint.calculate_median`,
lines 203-208: `zip(*item)` then `statistics.median` per axis). -/
def calculate_median (item : List (Fin 3 → ℚ)) : Fin 3 → ℚ :=
  fun i => pymedian (item.map (· i))

/-- The method `get_resampling_strategy(spacing)` of an instance whose
`self.anisotrophy` is `aniso`.  The strategy tag is returned as a string
exactly as in the source. -/
def get_resampling_strategy (aniso : List Bool) (spacing : List (Fin 3 → ℚ)) :
    (Fin 3 → ℚ) × String :=
  let target := calculate_median spacing
  if (aniso.count true : ℚ) ≥ (aniso.length : ℚ) / 2 then
    let index_max := argmax3 target
    (Function.update target index_max (percentile10 (spacing.map (· index_max))),
      "Anisotropic")
  else
    (target, "Median")

/-! ## `FingerPrint.calculate_padded_shape`
(`src/interactivenet/preprocessing/fingerprinting.py` lines 240-251)

    def calculate_padded_shape(self, shape, padding=0.1, divisible_by=None):
        new_shape = [x + math.ceil(x*padding) for x in shape]
        if divisible_by:
            if len(divisible_by) == 1:
                divisible_by = [divisible_by] * len(new_shape)
            for axis in range(len(new_shape)):
                residue = new_shape[axis] % divisible_by[axis]
                if residue != 0:
                    new_shape[axis] = new_shape[axis] + residue
        return new_shape

We model the case of a per-axis (length-matching) `divisible_by` list; the
loop body adds the residue `new_shape[axis] % divisible_by[axis]` itself. -/

/-- `calculate_padded_shape(shape, padding, divisible_by)` for a per-axis
divisor list. -/
def calculate_padded_shape (shape : List ℕ) (padding : ℚ) (divisible_by : List ℕ) :
    List ℕ :=
  let new_shape : List ℕ :=
    shape.map (fun (x : ℕ) => x + Int.toNat ⌈(x : ℚ) * padding⌉)
  new_shape.zipWith
    (fun x d => if x % d ≠ 0 then x + x % d else x) divisible_by

/-! ## Volumes

A 3-D array is modelled as a shape vector `Fin 3 → ℕ` together with a value
function on index vectors `Fin 3 → ℕ`; only the indices inside the shape are
meaningful.  `np.where(data > 0.5)` is modelled by the finite set of in-range
indices whose value exceeds `1/2`. -/

/-- All valid indices of an array of the given shape. -/
def allIdx (shape : Fin 3 → ℕ) : Finset (Fin 3 → ℕ) :=
  Fintype.piFinset (fun i => Finset.range (shape i))

/-- Indices produced by `np.where(data > 0.5)`. -/
def fgIdx (shape : Fin 3 → ℕ) (data : (Fin 3 → ℕ) → ℚ) : Finset (Fin 3 → ℕ) :=
  (allIdx shape).filter (fun p => 1 / 2 < data p)

/-! ## `FingerPrint.sanity_annotation_in_mask`
(`src/interactivenet/preprocessing/fingerprinting.py` lines 140-147)

    def sanity_annotation_in_mask(self, mask, annot):
        _check = True
        for inds_x, inds_y, inds_z in np.column_stack((np.where(annot.get_fdata() > 0.5))):
            if not mask.dataobj[inds_x, inds_y, inds_z] == 1:
                _check = False
                warn.warning("Some annotations are not in the mask")
        self.in_mask = _check

The module never imports or defines `warn`, so the first annotation voxel
that lies outside the mask raises `NameError` (modelled as `Except.error`);
only when no voxel violates the check does the method finish and record
`in_mask = True`. -/

/-- The method `sanity_annotation_in_mask(mask, annot)` on arrays of a common
shape: the recorded `in_mask` flag on success, `Except.error` for the
`NameError` raised by the undefined name `warn` on the first violation. -/
def sanity_annotation_in_mask (shape : Fin 3 → ℕ) (mask annot : (Fin 3 → ℕ) → ℚ) :
    Except Unit Bool :=
  if ∃ p ∈ allIdx shape, 1 / 2 < annot p ∧ mask p ≠ 1 then
    Except.error ()
  else
    Except.ok true

/-! ## `BoudingBoxd.calculate_bbox` / `extract_bbox_region`
(`src/transforms.py` lines 299-329; `FingerPrint.calculate_bbox`,
`src/interactivenet/preprocessing/fingerprinting.py` lines 210-234, is the
same computation with a per-call relaxation defaulting to `[0, 0, 0]`)

    inds_x, inds_y, inds_z = np.where(data > 0.5)
    bbox = np.array([[np.min(inds_x) - relaxation[0], ...],
                     [np.max(inds_x) + relaxation[0], ...]])
    bbox[bbox < 0] = 0
    largest_dimension = [int(x) if x <= data.shape[i] else data.shape[i]
                         for i, x in enumerate(bbox[1])]
    bbox = np.array([bbox[0].tolist(), largest_dimension])

`np.min` / `np.max` over the empty index arrays raise `ValueError`, modelled
as `none`. -/

/-- `calculate_bbox(data)` for an array of the given shape with integer
voxel relaxation.  Returns `none` when no voxel exceeds `0.5` (the
`ValueError` raised by `np.min` of an empty array). -/
def calculate_bbox (shape : Fin 3 → ℕ) (data : (Fin 3 → ℕ) → ℚ)
    (relaxation : Fin 3 → ℕ) : Option ((Fin 3 → ℤ) × (Fin 3 → ℤ)) :=
  let fg := fgIdx shape data
  if h : fg.Nonempty then
    let lower : Fin 3 → ℤ := fun i =>
      max 0 (((fg.image (fun p => p i)).min' (h.image _) : ℤ) - relaxation i)
    let upper0 : Fin 3 → ℤ := fun i =>
      max 0 (((fg.image (fun p => p i)).max' (h.image _) : ℤ) + relaxation i)
    some (lower, fun i => if upper0 i ≤ (shape i : ℤ) then upper0 i else (shape i : ℤ))
  else none

/-- Length of the Python slice `a[l:u]` of an axis of length `n`, for
non-negative bounds. -/
def sliceLen (l u : ℤ) (n : ℕ) : ℕ := (min u (n : ℤ) - min l (n : ℤ)).toNat

/-- `extract_bbox_region(data, bbox)`: the sliced array, as its shape
together with its value function. -/
def extract_bbox_region (shape : Fin 3 → ℕ) (data : (Fin 3 → ℕ) → ℚ)
    (bbox : (Fin 3 → ℤ) × (Fin 3 → ℤ)) : (Fin 3 → ℕ) × ((Fin 3 → ℕ) → ℚ) :=
  (fun i => sliceLen (bbox.1 i) (bbox.2 i) (shape i),
   fun p => data (fun i => p i + (bbox.1 i).toNat))

/-! ## `resample_point` (`src/transforms.py` lines 101-123)

    new_affine = affines.rescale_affine(affine, image_d.shape, new_spacing, new_shape=shape)
    inds_x, inds_y, inds_z = np.where(image_d > 0.5)
    for i, j, k in zip(inds_x, inds_y, inds_z):
        old_vox2new_vox = npl.inv(new_affine).dot(affine)
        new_point = np.rint(affines.apply_affine(old_vox2new_vox, [i, j, k])).astype(int)
        for i in range(len(new_point)):
            if new_point[i] < 0: new_point[i] = 0
            elif new_point[i] >= shape[i]: new_point[i] = shape[i] - 1
        resized[new_point[0], new_point[1], new_point[2]] = 1

The affine algebra (`nibabel.affines.rescale_affine` and the composite
voxel map) is modelled for affines whose rotation/scale block is a positive
diagonal matrix, which keeps `nibabel.affines.voxel_sizes` (the Euclidean
column norms) rational: for a diagonal block the column norms are the
absolute values of the diagonal entries. -/

/-- Per-axis clamp of `new_point` into `[0, shape)`:
`if v < 0: 0 elif v >= shape: shape - 1 else v`. -/
def clampAx (n : ℕ) (v : ℤ) : ℕ :=
  if v < 0 then 0 else if (n : ℤ) ≤ v then n - 1 else v.toNat

/-- Componentwise clamp of a mapped point into the target shape. -/
def clampIdx (shape : Fin 3 → ℕ) (v : Fin 3 → ℤ) : Fin 3 → ℕ :=
  fun i => clampAx (shape i) (v i)

/-- Core of `resample_point` for one channel, parametrized by the
rounded voxel-to-voxel map `phi` (the composite
`rint(inv(new_affine) . affine)`): every foreground voxel is mapped,
clamped into `[0, shape)` and set to `1` in the output.  The output
foreground is therefore the image of the input foreground set. -/
def resample_point (phi : (Fin 3 → ℕ) → (Fin 3 → ℤ)) (shape : Fin 3 → ℕ)
    (fg : Finset (Fin 3 → ℕ)) : Finset (Fin 3 → ℕ) :=
  fg.image (fun p => clampIdx shape (phi p))

/-- An affine with a diagonal rotation/scale block: voxel index `x` maps to
physical coordinate `scale i * x i + shift i` on axis `i`. -/
structure DiagAffine where
  scale : Fin 3 → ℚ
  shift : Fin 3 → ℚ

/-- `nibabel.affines.rescale_affine(affine, shape, zooms, new_shape)` for a
diagonal affine:

    s = voxel_sizes(affine)
    rzs_out = affine[:3, :3] * zooms / s
    centroid = apply_affine(affine, (shape - 1) // 2)
    t_out = centroid - rzs_out @ ((new_shape - 1) // 2)

with `voxel_sizes` equal to the absolute diagonal. -/
def rescale_affine (A : DiagAffine) (shape : Fin 3 → ℕ) (zooms : Fin 3 → ℚ)
    (new_shape : Fin 3 → ℕ) : DiagAffine :=
  let s : Fin 3 → ℚ := fun i => |A.scale i|
  let rzs : Fin 3 → ℚ := fun i => A.scale i * zooms i / s i
  let centroid : Fin 3 → ℚ :=
    fun i => A.scale i * ((((shape i : ℤ) - 1).fdiv 2 : ℤ) : ℚ) + A.shift i
  { scale := rzs
    shift := fun i => centroid i - rzs i * ((((new_shape i : ℤ) - 1).fdiv 2 : ℤ) : ℚ) }

/-- The composite map `inv(new_affine).dot(affine)` applied to a voxel
index, for diagonal affines. -/
def old_vox2new_vox (oldA newA : DiagAffine) (x : Fin 3 → ℚ) : Fin 3 → ℚ :=
  fun i => (oldA.scale i * x i + oldA.shift i - newA.shift i) / newA.scale i

/-- `resample_point(image_d, affine, new_spacing, shape)` for one channel of
a point volume with foreground set `fg` and a diagonal affine. -/
def resample_point_diag (A : DiagAffine) (new_spacing : Fin 3 → ℚ)
    (old_shape new_shape : Fin 3 → ℕ) (fg : Finset (Fin 3 → ℕ)) :
    Finset (Fin 3 → ℕ) :=
  let newA := rescale_affine A old_shape new_spacing new_shape
  resample_point
    (fun p i => rint (old_vox2new_vox A newA (fun j => (p j : ℚ)) i))
    new_shape fg

/-! ## `Resamplingd.__call__` (`src/transforms.py` lines 164-233)

With the pipeline's keys `["image", "annotation", "mask"]` the annotation
and mask entries are never touched (the branch guards test for the literal
key names "point", "label", "seg").  The decisive control flow is:

    resample_flag = False
    anisotrophy_flag = False
    if self.target_spacing != image_spacings:
        resample_flag = True
        spacing_ratio = np.array(image_spacings) / np.array(self.target_spacing)
        resample_shape = self.calculate_new_shape(spacing_ratio, original_shape)
        anisotrophy_flag = self.check_anisotrophy(image_spacings)
        image = resample_image(image, resample_shape, anisotrophy_flag)
    d["resample_flag"] = resample_flag
    d["anisotrophy_flag"] = anisotrophy_flag
    new_meta = {"new_spacing": np.array(self.target_spacing),
                "new_dim": np.array(resample_shape)}

`resample_shape` is assigned only inside the `if` branch, so when the
spacings compare equal the construction of `new_meta` raises `NameError`
(modelled as `Except.error`).  `resample_image` (a `skimage` interpolation)
is kept opaque as a function parameter. -/

/-- `Resamplingd.calculate_new_shape(spacing_ratio, shape)`
(`src/transforms.py` lines 141-143): `(spacing_ratio * shape).astype(int)`. -/
def calculate_new_shape (spacing_ratio : Fin 3 → ℚ) (shape : Fin 3 → ℕ) :
    Fin 3 → ℤ :=
  fun i => pytrunc (spacing_ratio i * (shape i : ℚ))

/-- `Resamplingd.__call__` on a case, specialized to the claim-relevant
outputs: the (possibly resampled) image, `resample_flag`,
`anisotrophy_flag`, and the new meta entries `new_spacing`, `new_dim`. -/
def resamplingCall {α : Type} (resampleImage : α → (Fin 3 → ℤ) → Bool → α)
    (target_spacing image_spacings : Fin 3 → ℚ) (image : α)
    (original_shape : Fin 3 → ℕ) :
    Except Unit (α × Bool × Bool × (Fin 3 → ℚ) × (Fin 3 → ℤ)) :=
  if target_spacing ≠ image_spacings then
    let spacing_ratio : Fin 3 → ℚ := fun i => image_spacings i / target_spacing i
    let resample_shape := calculate_new_shape spacing_ratio original_shape
    let anisotrophy_flag := decide (check_anisotrophy target_spacing image_spacings)
    let image' := resampleImage image resample_shape anisotrophy_flag
    Except.ok (image', true, anisotrophy_flag, target_spacing, resample_shape)
  else
    Except.error ()

/-! ## `FingerPrint.get_kernels_strides` / `get_divisible`
(`src/interactivenet/preprocessing/fingerprinting.py` lines 177-201)

    strides, kernels = [], []
    while True:
        spacing_ratio = [sp / min(spacings) for sp in spacings]
        stride = [2 if ratio <= 2 and size >= 8 else 1
                  for (ratio, size) in zip(spacing_ratio, sizes)]
        kernel = [3 if ratio <= 2 else 1 for ratio in spacing_ratio]
        if all(s == 1 for s in stride):
            break
        sizes = [i / j for i, j in zip(sizes, stride)]
        spacings = [i * j for i, j in zip(spacings, stride)]
        kernels.append(kernel)
        strides.append(stride)
    strides.insert(0, len(spacings) * [1])
    kernels.append(len(spacings) * [3])
    return kernels, strides

Vectors of length `n + 1` model the equal-length Python lists; the
unbounded `while True` is modelled with a fuel parameter (the termination
theorem shows `Nat.log2 (max size)` iterations always suffice). -/

/-- `min(spacings)`. -/
def minSpacing {n : ℕ} (sp : Fin (n + 1) → ℚ) : ℚ :=
  Finset.univ.inf' Finset.univ_nonempty sp

/-- One entry of the per-iteration stride layer:
`2 if ratio <= 2 and size >= 8 else 1` where `ratio = spacing / m`. -/
def strideOf (m size spacing : ℚ) : ℕ :=
  if spacing / m ≤ 2 ∧ 8 ≤ size then 2 else 1

/-- One entry of the per-iteration kernel layer: `3 if ratio <= 2 else 1`. -/
def kernelOf (m spacing : ℚ) : ℕ :=
  if spacing / m ≤ 2 then 3 else 1

/-- The stride layer computed from the current sizes and spacings. -/
def strideVec {n : ℕ} (sizes spacings : Fin (n + 1) → ℚ) : Fin (n + 1) → ℕ :=
  fun i => strideOf (minSpacing spacings) (sizes i) (spacings i)

/-- The kernel layer computed from the current spacings. -/
def kernelVec {n : ℕ} (spacings : Fin (n + 1) → ℚ) : Fin (n + 1) → ℕ :=
  fun i => kernelOf (minSpacing spacings) (spacings i)

/-- One iteration of the loop body on the `(sizes, spacings)` state:
`sizes /= stride`, `spacings *= stride`.  On a state whose stride layer is
all ones (the loop's break condition) this is the identity. -/
def stepKS {n : ℕ} (s : (Fin (n + 1) → ℚ) × (Fin (n + 1) → ℚ)) :
    (Fin (n + 1) → ℚ) × (Fin (n + 1) → ℚ) :=
  let st := strideVec s.1 s.2
  (fun i => s.1 i / (st i : ℚ), fun i => s.2 i * (st i : ℚ))

/-- The loop's break condition: the computed stride layer is all ones. -/
def allStridesOne {n : ℕ} (s : (Fin (n + 1) → ℚ) × (Fin (n + 1) → ℚ)) : Prop :=
  ∀ i, strideVec s.1 s.2 i = 1

instance {n : ℕ} (s : (Fin (n + 1) → ℚ) × (Fin (n + 1) → ℚ)) :
    Decidable (allStridesOne s) := by
  unfold allStridesOne; infer_instance

/-- The `while True` loop, accumulating kernel and stride layers, with fuel. -/
def ksLoop {n : ℕ} : ℕ → (Fin (n + 1) → ℚ) × (Fin (n + 1) → ℚ) →
    List (Fin (n + 1) → ℕ) × List (Fin (n + 1) → ℕ)
  | 0, _ => ([], [])
  | fuel + 1, s =>
    if allStridesOne s then ([], [])
    else
      let rest := ksLoop fuel (stepKS s)
      (kernelVec s.2 :: rest.1, strideVec s.1 s.2 :: rest.2)

/-- `get_kernels_strides(sizes, spacings)`: the loop's layers with the
initial all-ones stride layer prepended and the final all-3 kernel layer
appended. -/
def get_kernels_strides {n : ℕ} (fuel : ℕ) (sizes spacings : Fin (n + 1) → ℚ) :
    List (Fin (n + 1) → ℕ) × List (Fin (n + 1) → ℕ) :=
  let r := ksLoop fuel (sizes, spacings)
  (r.1 ++ [fun _ => 3], (fun _ => 1) :: r.2)

/-- `get_divisible(strides)`: the per-axis product of all stride layers. -/
def get_divisible {n : ℕ} (strides : List (Fin (n + 1) → ℕ)) : Fin (n + 1) → ℕ :=
  strides.foldl (fun d st => fun i => d i * st i) (fun _ => 1)

/-- A state of the kernel/stride loop in which some axis attains the
minimum spacing but is too small to be halved (`size < 8`).  Such an axis
keeps the minimum spacing constant forever, which forces the loop to stop
within two more iterations. -/
def FrozenMin {n : ℕ} (s : (Fin (n + 1) → ℚ) × (Fin (n + 1) → ℚ)) : Prop :=
  ∃ j, s.2 j = minSpacing s.2 ∧ s.1 j < 8

/-! ## Helper lemmas -/

lemma le_pymax3 (s : Fin 3 → ℚ) (i : Fin 3) : s i ≤ pymax3 s := by
  fin_cases i
  · exact le_max_left _ _
  · exact le_trans (le_max_left _ _) (le_max_right _ _)
  · exact le_trans (le_max_right _ _) (le_max_right _ _)

lemma pymin3_le (s : Fin 3 → ℚ) (i : Fin 3) : pymin3 s ≤ s i := by
  fin_cases i
  · exact min_le_left _ _
  · exact le_trans (min_le_right _ _) (min_le_left _ _)
  · exact le_trans (min_le_right _ _) (min_le_right _ _)

lemma pymax3_attained (s : Fin 3 → ℚ) : ∃ i, pymax3 s = s i := by
  rcases max_choice (s 0) (max (s 1) (s 2)) with h | h
  · exact ⟨0, h⟩
  · rcases max_choice (s 1) (s 2) with h2 | h2
    · exact ⟨1, h.trans h2⟩
    · exact ⟨2, h.trans h2⟩

lemma pymin3_attained (s : Fin 3 → ℚ) : ∃ i, pymin3 s = s i := by
  rcases min_choice (s 0) (min (s 1) (s 2)) with h | h
  · exact ⟨0, h⟩
  · rcases min_choice (s 1) (s 2) with h2 | h2
    · exact ⟨1, h.trans h2⟩
    · exact ⟨2, h.trans h2⟩

lemma pymax3_comp_perm (s : Fin 3 → ℚ) (σ : Equiv.Perm (Fin 3)) :
    pymax3 (s ∘ σ) = pymax3 s := by
  apply le_antisymm
  · obtain ⟨i, hi⟩ := pymax3_attained (s ∘ σ)
    rw [hi]; exact le_pymax3 s (σ i)
  · obtain ⟨i, hi⟩ := pymax3_attained s
    rw [hi]
    have h := le_pymax3 (s ∘ σ) (σ.symm i)
    simpa using h

lemma pymin3_comp_perm (s : Fin 3 → ℚ) (σ : Equiv.Perm (Fin 3)) :
    pymin3 (s ∘ σ) = pymin3 s := by
  apply le_antisymm
  · obtain ⟨i, hi⟩ := pymin3_attained s
    rw [hi]
    have h := pymin3_le (s ∘ σ) (σ.symm i)
    simpa using h
  · obtain ⟨i, hi⟩ := pymin3_attained (s ∘ σ)
    rw [hi]; exact pymin3_le s (σ i)

lemma count_cond_iff (a b : ℕ) : ((a : ℚ) ≥ (b : ℚ) / 2) ↔ b ≤ 2 * a := by
  rw [ge_iff_le, div_le_iff₀ (by norm_num : (0 : ℚ) < 2)]
  norm_cast
  omega

lemma rint_intCast (k : ℤ) : rint ((k : ℤ) : ℚ) = k := by
  unfold rint
  simp

lemma clampAx_lt {a : ℕ} (ha : 0 < a) (v : ℤ) : clampAx a v < a := by
  unfold clampAx
  split
  · exact ha
  · split
    · omega
    · omega

lemma clampAx_of_range {a : ℕ} {p : ℕ} (hp : p < a) : clampAx a (p : ℤ) = p := by
  unfold clampAx
  split
  · omega
  · split
    · omega
    · omega

/-! ## C1: `calculate_padded_shape` -/

/-- C1.  The claim states that `calculate_padded_shape` always returns a
shape divisible by the supplied divisors, equal to
`shape[i] + ceil(shape[i] * paddingFraction)` rounded up to the next
multiple of `divisibleBy[i]`.  The code adds the residue
`new_shape % divisible_by` instead of `divisible_by - residue`:
on shape `[8,8,8]`, fraction `1/10`, divisors `[4,4,4]` it returns
`[10,10,10]`, which is not divisible by `4` and differs from the
rounded-up value `12`. -/
theorem C1_padded_shape_bug :
    calculate_padded_shape [8, 8, 8] (1 / 10) [4, 4, 4] = [10, 10, 10] ∧
      ¬ (4 ∣ 10) ∧ (10 : ℕ) ≠ 12 := by
  with_unfolding_all decide

/-! ## C2: `Resamplingd.__call__` with spacing equal to the target -/

/-- C2.  The claim states that a case whose spacing equals the target
spacing passes through unchanged with `resample_flag = False`.  On that
path the code instead raises `NameError` when building `new_meta`, because
`resample_shape` is only assigned inside the resampling branch (modelled as
`Except.error`), on the 2-case spec example with spacing `(1,1,1)` and
shape `(50,50,50)`. -/
theorem C2_resampling_equal_spacing_raises :
    resamplingCall (α := Unit) (fun a _ _ => a) ![1, 1, 1] ![1, 1, 1] ()
        ![50, 50, 50] = Except.error () := by
  rw [resamplingCall, if_neg]
  simp

/-! ## C3: `sanity_annotation_in_mask` -/

/-- C3.  The claim states that an annotation voxel outside the mask only
sets a non-fatal warning flag.  The code instead raises `NameError` on the
first such voxel because the name `warn` is never imported (modelled as
`Except.error`): here a `1x1x1` volume whose annotation voxel is `1` while
the mask voxel is `0`. -/
theorem C3_annotation_out_of_mask_raises :
    sanity_annotation_in_mask ![1, 1, 1] (fun _ => 0) (fun _ => 1)
      = Except.error () := by
  rw [sanity_annotation_in_mask, if_pos]
  exact ⟨fun _ => 0, by with_unfolding_all decide⟩

/-! ## C4: `check_anisotrophy` -/

/-- C4 counterexample.  The claim states that `check_anisotrophy(s)` is
true iff `max(s)/min(s) >= 3`.  On an instance whose target spacing is
`(1,1,3)`, the spacing `(1,1,1)` has `max/min = 1 < 3` yet the method
returns `True` (it also checks `self.target_spacing`). -/
theorem C4_counterexample :
    check_anisotrophy ![1, 1, 3] ![1, 1, 1] ∧
      ¬ (3 ≤ pymax3 ![1, 1, 1] / pymin3 ![1, 1, 1]) := by
  with_unfolding_all decide

/-- C4 amended.  For positive spacings, `check_anisotrophy(s)` on an
instance with target spacing `target` is true iff `max(s)/min(s) >= 3` or
`max(target)/min(target) >= 3`, and the result is invariant under any
permutation of the axes of `s`. -/
theorem C4_check_anisotrophy (target s : Fin 3 → ℚ)
    (hs : ∀ i, 0 < s i) (ht : ∀ i, 0 < target i) :
    (check_anisotrophy target s ↔
      3 ≤ pymax3 s / pymin3 s ∨ 3 ≤ pymax3 target / pymin3 target) ∧
    ∀ σ : Equiv.Perm (Fin 3),
      (check_anisotrophy target (s ∘ σ) ↔ check_anisotrophy target s) := by
  constructor
  · exact Iff.rfl
  · intro σ
    unfold check_anisotrophy anisoCheck
    rw [pymax3_comp_perm, pymin3_comp_perm]

/-- C4 witness: the amended theorem applied at target `(2,2,2)` and
spacing `(1,1,4)`. -/
theorem C4_witness :
    ((check_anisotrophy ![2, 2, 2] ![1, 1, 4] ↔
      3 ≤ pymax3 ![1, 1, 4] / pymin3 ![1, 1, 4] ∨
        3 ≤ pymax3 ![2, 2, 2] / pymin3 ![2, 2, 2]) ∧
    ∀ σ : Equiv.Perm (Fin 3),
      (check_anisotrophy ![2, 2, 2] (![1, 1, 4] ∘ σ) ↔
        check_anisotrophy ![2, 2, 2] ![1, 1, 4])) :=
  C4_check_anisotrophy ![2, 2, 2] ![1, 1, 4] (by with_unfolding_all decide)
    (by with_unfolding_all decide)

/-! ## C5: `get_resampling_strategy` -/

/-- C5.  For a non-empty list of case spacings: when fewer than half of the
per-case anisotropy flags are set, the strategy is "Median" and the target
is exactly the per-axis median; when at least half are set, the strategy is
"Anisotropic" and the target is the per-axis median with the axis of
largest median spacing replaced by the 10th percentile of that axis's
spacings. -/
theorem C5_get_resampling_strategy (aniso : List Bool)
    (spacing : List (Fin 3 → ℚ)) (hne : spacing ≠ []) :
    (2 * aniso.count true < aniso.length →
      get_resampling_strategy aniso spacing
        = (fun i => pymedian (spacing.map (fun s => s i)), "Median")) ∧
    (aniso.length ≤ 2 * aniso.count true →
      (get_resampling_strategy aniso spacing).2 = "Anisotropic" ∧
      (get_resampling_strategy aniso spacing).1 (argmax3 (calculate_median spacing))
        = percentile10
            (spacing.map (fun s => s (argmax3 (calculate_median spacing)))) ∧
      ∀ i, i ≠ argmax3 (calculate_median spacing) →
        (get_resampling_strategy aniso spacing).1 i
          = pymedian (spacing.map (fun s => s i))) := by
  constructor
  · intro hlt
    rw [get_resampling_strategy, if_neg]
    · rfl
    · rw [count_cond_iff]; omega
  · intro hge
    rw [get_resampling_strategy, if_pos ((count_cond_iff _ _).2 hge)]
    refine ⟨rfl, ?_, ?_⟩
    · simp [Function.update_same]
    · intro i hi
      simp only
      rw [Function.update_noteq hi]
      rfl

/-- C5 witness: the theorem applied to a concrete 1-case dataset with no
anisotropic case. -/
theorem C5_witness :
    get_resampling_strategy [false] [![1, 1, 1]]
      = (fun i => pymedian ([![(1 : ℚ), 1, 1]].map (fun s => s i)), "Median") :=
  (C5_get_resampling_strategy [false] [![1, 1, 1]] (by simp)).1 (by decide)

/-! ## C6: bounding-box corners and round-trip -/

lemma option_eq_some_of_getD {α : Type} {o : Option α} {d v : α}
    (h1 : o.isSome = true) (h2 : o.getD d = v) : o = some v := by
  cases o
  · exact absurd h1 (by simp)
  · simpa using h2

/-- C6 counterexample.  The claim states both bbox corners lie in
`[0, shape)` after clamping.  On a `1x1x1` volume whose single voxel is
foreground, with relaxation `(1,1,1)`, the upper corner is clamped to the
shape itself (`1`), which is not `< 1`. -/
theorem C6_counterexample :
    calculate_bbox ![1, 1, 1] (fun _ => (1 : ℚ)) ![1, 1, 1]
        = some (fun _ => 0, fun _ => 1) ∧
      ¬ ((fun (_ : Fin 3) => (1 : ℤ)) 0 < ((![1, 1, 1] : Fin 3 → ℕ) 0 : ℤ)) := by
  constructor
  · exact option_eq_some_of_getD (d := (fun _ => 0, fun _ => 0))
      (by with_unfolding_all decide) (by with_unfolding_all decide)
  · with_unfolding_all decide

/-- C6 amended.  Whenever `calculate_bbox` returns a box, the lower corner
lies in `[0, shape)`, the upper corner in `[0, shape]` (it may equal the
shape), the corners are ordered, and the extracted region's shape equals
the per-axis corner difference `upper - lower`. -/
theorem C6_bbox_roundtrip (shape : Fin 3 → ℕ) (data : (Fin 3 → ℕ) → ℚ)
    (r : Fin 3 → ℕ) (lower upper : Fin 3 → ℤ)
    (h : calculate_bbox shape data r = some (lower, upper)) :
    ∀ i, 0 ≤ lower i ∧ lower i < (shape i : ℤ) ∧ lower i ≤ upper i ∧
      upper i ≤ (shape i : ℤ) ∧
      ((extract_bbox_region shape data (lower, upper)).1 i : ℤ)
        = upper i - lower i := by
  simp only [calculate_bbox] at h
  by_cases hne : (fgIdx shape data).Nonempty
  case neg =>
    rw [dif_neg hne] at h
    exact absurd h (by simp)
  rw [dif_pos hne, Option.some_inj, Prod.mk.injEq] at h
  obtain ⟨hlow, hup⟩ := h
  intro i
  have hmem : ∀ q ∈ fgIdx shape data, q i < shape i := by
    intro q hq
    have hq2 := (Finset.mem_filter.1 hq).1
    rw [allIdx, Fintype.mem_piFinset] at hq2
    exact Finset.mem_range.1 (hq2 i)
  set S : Finset ℤ := (fgIdx shape data).image (fun p => ((p i : ℕ) : ℤ)) with hS
  have hSne : S.Nonempty := hne.image _
  set a : ℤ := S.min' hSne with ha
  set b : ℤ := S.max' hSne with hb
  obtain ⟨qa, hqa, hqae⟩ := Finset.mem_image.1 (S.min'_mem hSne)
  obtain ⟨qb, hqb, hqbe⟩ := Finset.mem_image.1 (S.max'_mem hSne)
  have ha0 : 0 ≤ a := by rw [← ha] at hqae; omega
  have han : a < (shape i : ℤ) := by
    rw [← ha] at hqae
    have := hmem qa hqa
    omega
  have hbn : b < (shape i : ℤ) := by
    rw [← hb] at hqbe
    have := hmem qb hqb
    omega
  have hab : a ≤ b := S.min'_le b (S.max'_mem hSne)
  have hrc : (0 : ℤ) ≤ (r i : ℤ) := Int.natCast_nonneg _
  have hn0 : (0 : ℤ) < (shape i : ℤ) := by omega
  have hlow_i : lower i = max 0 (a - (r i : ℤ)) := (congrFun hlow i).symm
  have hup_i : upper i
      = if max 0 (b + (r i : ℤ)) ≤ (shape i : ℤ) then max 0 (b + (r i : ℤ))
        else (shape i : ℤ) := by
    have := (congrFun hup i).symm
    simpa using this
  have hbmax : max 0 (b + (r i : ℤ)) = b + (r i : ℤ) := max_eq_right (by omega)
  rw [hbmax] at hup_i
  have h0le : 0 ≤ lower i := hlow_i ▸ le_max_left _ _
  have hlt : lower i < (shape i : ℤ) := by
    rw [hlow_i, max_lt_iff]
    exact ⟨hn0, by omega⟩
  have hord : lower i ≤ upper i := by
    rw [hlow_i, hup_i]
    split
    · exact max_le (by omega) (by omega)
    · exact max_le (by omega) (by omega)
  have hup_le : upper i ≤ (shape i : ℤ) := by
    rw [hup_i]
    split
    · assumption
    · exact le_rfl
  refine ⟨h0le, hlt, hord, hup_le, ?_⟩
  show ((sliceLen (lower i) (upper i) (shape i) : ℕ) : ℤ) = upper i - lower i
  rw [sliceLen, min_eq_left hup_le, min_eq_left (le_of_lt hlt)]
  rw [Int.toNat_of_nonneg (by omega)]

/-- C6 witness: the amended theorem applied to an all-foreground `2x2x2`
volume with zero relaxation. -/
theorem C6_witness :
    0 ≤ (fun (_ : Fin 3) => (0 : ℤ)) 0 ∧
      (fun (_ : Fin 3) => (0 : ℤ)) 0 < ((![2, 2, 2] : Fin 3 → ℕ) 0 : ℤ) ∧
      (fun (_ : Fin 3) => (0 : ℤ)) 0 ≤ (fun (_ : Fin 3) => (1 : ℤ)) 0 ∧
      (fun (_ : Fin 3) => (1 : ℤ)) 0 ≤ ((![2, 2, 2] : Fin 3 → ℕ) 0 : ℤ) ∧
      ((extract_bbox_region ![2, 2, 2] (fun _ => (1 : ℚ))
          (fun _ => 0, fun _ => 1)).1 0 : ℤ)
        = (fun (_ : Fin 3) => (1 : ℤ)) 0 - (fun (_ : Fin 3) => (0 : ℤ)) 0 :=
  C6_bbox_roundtrip ![2, 2, 2] (fun _ => (1 : ℚ)) (fun _ => 0)
    (fun _ => 0) (fun _ => 1)
    (option_eq_some_of_getD (d := (fun _ => 0, fun _ => 0))
      (by with_unfolding_all decide) (by with_unfolding_all decide)) 0

/-! ## C7: empty mask -/

/-- C7.  For every volume in which no voxel exceeds `0.5`, bounding-box
computation fails fast (the `ValueError` of `np.min` over an empty index
array, modelled as `none`) and never returns a box. -/
theorem C7_empty_mask_error (shape : Fin 3 → ℕ) (data : (Fin 3 → ℕ) → ℚ)
    (r : Fin 3 → ℕ) (h : ∀ p ∈ allIdx shape, ¬ (1 / 2 < data p)) :
    calculate_bbox shape data r = none := by
  rw [calculate_bbox]
  rw [dif_neg]
  intro ⟨p, hp⟩
  have := Finset.mem_filter.1 hp
  exact h p this.1 this.2

/-- C7 witness: the theorem applied to the all-zero `1x1x1` volume. -/
theorem C7_witness :
    calculate_bbox ![1, 1, 1] (fun _ => (0 : ℚ)) ![0, 0, 0] = none :=
  C7_empty_mask_error ![1, 1, 1] (fun _ => (0 : ℚ)) ![0, 0, 0]
    (by with_unfolding_all decide)

/-! ## C9: `resample_point` -/

lemma rescale_affine_id {A : DiagAffine} (hA : ∀ i, 0 < A.scale i)
    (sh : Fin 3 → ℕ) :
    rescale_affine A sh A.scale sh = A := by
  have hsc : ∀ i, (rescale_affine A sh A.scale sh).scale i = A.scale i := by
    intro i
    simp only [rescale_affine]
    rw [abs_of_pos (hA i), mul_div_cancel_right₀ _ (ne_of_gt (hA i))]
  cases A with
  | mk scale shift =>
    simp only [rescale_affine, DiagAffine.mk.injEq]
    constructor
    · funext i
      rw [abs_of_pos (hA i), mul_div_cancel_right₀ _ (ne_of_gt (hA i))]
    · funext i
      rw [abs_of_pos (hA i), mul_div_cancel_right₀ _ (ne_of_gt (hA i))]
      ring

/-- C9.  Under an identity mapping (the new spacing equals the affine's own
diagonal spacing and the target shape equals the source shape) the
resampling of a point volume is the identity on the foreground set, so the
foreground count is preserved exactly; for arbitrary parameters the output
foreground count never exceeds the input count (the output is an image of
the input set), and every output point is clamped into `[0, targetShape)`
instead of raising an error. -/
theorem C9_resample_point :
    (∀ (A : DiagAffine) (sh : Fin 3 → ℕ) (fg : Finset (Fin 3 → ℕ)),
      (∀ i, 0 < A.scale i) → (∀ p ∈ fg, ∀ i, p i < sh i) →
      resample_point_diag A A.scale sh sh fg = fg ∧
      (resample_point_diag A A.scale sh sh fg).card = fg.card) ∧
    (∀ (A : DiagAffine) (z : Fin 3 → ℚ) (osh nsh : Fin 3 → ℕ)
      (fg : Finset (Fin 3 → ℕ)),
      (resample_point_diag A z osh nsh fg).card ≤ fg.card) ∧
    (∀ (A : DiagAffine) (z : Fin 3 → ℚ) (osh nsh : Fin 3 → ℕ)
      (fg : Finset (Fin 3 → ℕ)), (∀ i, 0 < nsh i) →
      ∀ q ∈ resample_point_diag A z osh nsh fg, ∀ i, q i < nsh i) := by
  refine ⟨?_, ?_, ?_⟩
  · intro A sh fg hA hfg
    have heq : resample_point_diag A A.scale sh sh fg = fg := by
      unfold resample_point_diag resample_point
      rw [rescale_affine_id hA]
      have hid : ∀ p ∈ fg,
          clampIdx sh (fun i =>
            rint (old_vox2new_vox A A (fun j => ((p j : ℕ) : ℚ)) i)) = p := by
        intro p hp
        funext i
        show clampAx (sh i)
          (rint (old_vox2new_vox A A (fun j => ((p j : ℕ) : ℚ)) i)) = p i
        have hmap : old_vox2new_vox A A (fun j => ((p j : ℕ) : ℚ)) i
            = ((p i : ℕ) : ℚ) := by
          unfold old_vox2new_vox
          rw [add_sub_cancel_right, mul_div_cancel_left₀ _ (ne_of_gt (hA i))]
        have hcast : ((p i : ℕ) : ℚ) = (((p i : ℕ) : ℤ) : ℚ) := by push_cast; ring
        rw [hmap, hcast, rint_intCast]
        exact clampAx_of_range (hfg p hp i)
      rw [Finset.image_congr hid, Finset.image_id']
    exact ⟨heq, by rw [heq]⟩
  · intro A z osh nsh fg
    unfold resample_point_diag resample_point
    exact Finset.card_image_le
  · intro A z osh nsh fg hn q hq i
    unfold resample_point_diag resample_point at hq
    obtain ⟨p, _, hpe⟩ := Finset.mem_image.1 hq
    rw [← hpe]
    exact clampAx_lt (hn i) _

/-- C9 witness: identity resampling of a single point at `(2,2,2)` in a
`4x4x4` volume, and in-range clamping for a shrinking resample. -/
theorem C9_witness :
    (resample_point_diag ⟨![1, 1, 1], ![0, 0, 0]⟩ ![1, 1, 1] ![4, 4, 4] ![4, 4, 4]
        {fun _ => 2} = {fun _ => 2} ∧
      (resample_point_diag ⟨![1, 1, 1], ![0, 0, 0]⟩ ![1, 1, 1] ![4, 4, 4] ![4, 4, 4]
        {fun _ => 2}).card = ({fun _ => 2} : Finset (Fin 3 → ℕ)).card) ∧
    ∀ q ∈ resample_point_diag ⟨![2, 2, 2], ![3, 3, 3]⟩ ![1, 1, 1] ![4, 4, 4]
        ![2, 2, 2] {fun _ => 0}, ∀ i, q i < (![2, 2, 2] : Fin 3 → ℕ) i :=
  ⟨C9_resample_point.1 ⟨![1, 1, 1], ![0, 0, 0]⟩ ![4, 4, 4] {fun _ => 2}
      (by with_unfolding_all decide) (by with_unfolding_all decide),
   C9_resample_point.2.2 ⟨![2, 2, 2], ![3, 3, 3]⟩ ![1, 1, 1] ![4, 4, 4] ![2, 2, 2]
      {fun _ => 0} (by with_unfolding_all decide)⟩

/-! ## Kernel/stride loop lemmas (for C8 and C10) -/

lemma strideVec_def {n : ℕ} (sizes spacings : Fin (n + 1) → ℚ) (i : Fin (n + 1)) :
    strideVec sizes spacings i
      = strideOf (minSpacing spacings) (sizes i) (spacings i) := rfl

lemma strideOf_one_or_two (m a b : ℚ) :
    strideOf m a b = 1 ∨ strideOf m a b = 2 := by
  unfold strideOf
  split
  · exact Or.inr rfl
  · exact Or.inl rfl

lemma one_le_strideOf (m a b : ℚ) : 1 ≤ strideOf m a b := by
  rcases strideOf_one_or_two m a b with h | h <;> omega

lemma kernelOf_one_or_three (m b : ℚ) :
    kernelOf m b = 1 ∨ kernelOf m b = 3 := by
  unfold kernelOf
  split
  · exact Or.inr rfl
  · exact Or.inl rfl

lemma strideOf_eq_two_iff {m : ℚ} (hm : 0 < m) (a b : ℚ) :
    strideOf m a b = 2 ↔ (b ≤ 2 * m ∧ 8 ≤ a) := by
  have hdiv : b / m ≤ 2 ↔ b ≤ 2 * m := div_le_iff₀ hm
  unfold strideOf
  split
  · next hc => exact ⟨fun _ => ⟨hdiv.1 hc.1, hc.2⟩, fun _ => rfl⟩
  · next hc =>
    constructor
    · intro h1; exact absurd h1 (by norm_num)
    · intro hcc; exact absurd ⟨hdiv.2 hcc.1, hcc.2⟩ hc

lemma strideOf_eq_one_iff {m : ℚ} (hm : 0 < m) (a b : ℚ) :
    strideOf m a b = 1 ↔ ¬ (b ≤ 2 * m ∧ 8 ≤ a) := by
  rcases strideOf_one_or_two m a b with h | h
  · rw [h]
    simp only [true_iff]
    intro hc
    have h2 := (strideOf_eq_two_iff hm a b).2 hc
    omega
  · have hc := (strideOf_eq_two_iff hm a b).1 h
    rw [h]
    constructor
    · intro h21; exact absurd h21 (by norm_num)
    · intro hn; exact absurd hc hn

lemma minSpacing_le {n : ℕ} (sp : Fin (n + 1) → ℚ) (i : Fin (n + 1)) :
    minSpacing sp ≤ sp i :=
  Finset.inf'_le _ (Finset.mem_univ i)

lemma le_minSpacing {n : ℕ} {sp : Fin (n + 1) → ℚ} {c : ℚ}
    (h : ∀ i, c ≤ sp i) : c ≤ minSpacing sp :=
  Finset.le_inf' _ _ (fun i _ => h i)

lemma minSpacing_attained {n : ℕ} (sp : Fin (n + 1) → ℚ) :
    ∃ j, minSpacing sp = sp j := by
  obtain ⟨j, _, hj⟩ := Finset.exists_mem_eq_inf' Finset.univ_nonempty sp
  exact ⟨j, hj⟩

lemma minSpacing_pos {n : ℕ} {sp : Fin (n + 1) → ℚ} (h : ∀ i, 0 < sp i) :
    0 < minSpacing sp := by
  obtain ⟨j, hj⟩ := minSpacing_attained sp
  rw [hj]
  exact h j

lemma stepKS_fst {n : ℕ} (s : (Fin (n + 1) → ℚ) × (Fin (n + 1) → ℚ))
    (i : Fin (n + 1)) :
    (stepKS s).1 i = s.1 i / (strideVec s.1 s.2 i : ℚ) := rfl

lemma stepKS_snd {n : ℕ} (s : (Fin (n + 1) → ℚ) × (Fin (n + 1) → ℚ))
    (i : Fin (n + 1)) :
    (stepKS s).2 i = s.2 i * (strideVec s.1 s.2 i : ℚ) := rfl

lemma spacings_pos_step {n : ℕ} {s : (Fin (n + 1) → ℚ) × (Fin (n + 1) → ℚ)}
    (h : ∀ i, 0 < s.2 i) : ∀ i, 0 < (stepKS s).2 i := by
  intro i
  rw [stepKS_snd]
  apply mul_pos (h i)
  have h1 := one_le_strideOf (minSpacing s.2) (s.1 i) (s.2 i)
  rw [strideVec_def]
  exact_mod_cast by omega

lemma spacing_le_step {n : ℕ} {s : (Fin (n + 1) → ℚ) × (Fin (n + 1) → ℚ)}
    (h : ∀ i, 0 < s.2 i) (i : Fin (n + 1)) : s.2 i ≤ (stepKS s).2 i := by
  rw [stepKS_snd]
  apply le_mul_of_one_le_right (h i).le
  have h1 := one_le_strideOf (minSpacing s.2) (s.1 i) (s.2 i)
  rw [strideVec_def]
  exact_mod_cast h1

lemma minSpacing_le_step {n : ℕ} {s : (Fin (n + 1) → ℚ) × (Fin (n + 1) → ℚ)}
    (h : ∀ i, 0 < s.2 i) : minSpacing s.2 ≤ minSpacing (stepKS s).2 :=
  le_minSpacing (fun i => (minSpacing_le _ i).trans (spacing_le_step h i))

lemma frozen_step {n : ℕ} {s : (Fin (n + 1) → ℚ) × (Fin (n + 1) → ℚ)}
    {i : Fin (n + 1)} (hsz : s.1 i < 8) :
    (stepKS s).1 i = s.1 i ∧ (stepKS s).2 i = s.2 i := by
  have h1 : strideVec s.1 s.2 i = 1 := by
    rw [strideVec_def]
    unfold strideOf
    rw [if_neg]
    intro hc
    exact absurd hc.2 (not_le.2 hsz)
  constructor
  · rw [stepKS_fst, h1]; norm_num
  · rw [stepKS_snd, h1]; norm_num

lemma frozenMin_step {n : ℕ} {s : (Fin (n + 1) → ℚ) × (Fin (n + 1) → ℚ)}
    (hP : ∀ i, 0 < s.2 i) (h : FrozenMin s) :
    minSpacing (stepKS s).2 = minSpacing s.2 ∧ FrozenMin (stepKS s) := by
  obtain ⟨j, hj, hsz⟩ := h
  obtain ⟨hfz1, hfz2⟩ := frozen_step hsz
  have hmin : minSpacing (stepKS s).2 = minSpacing s.2 := by
    apply le_antisymm
    · calc minSpacing (stepKS s).2 ≤ (stepKS s).2 j := minSpacing_le _ j
        _ = s.2 j := hfz2
        _ = minSpacing s.2 := hj
    · exact minSpacing_le_step hP
  refine ⟨hmin, j, ?_, ?_⟩
  · rw [hfz2, hj, hmin]
  · rw [hfz1]; exact hsz

lemma frozenMin_allOnes {n : ℕ} {s : (Fin (n + 1) → ℚ) × (Fin (n + 1) → ℚ)}
    (hP : ∀ i, 0 < s.2 i) (h : FrozenMin s) :
    allStridesOne (stepKS (stepKS s)) := by
  set m := minSpacing s.2 with hmdef
  have hm : 0 < m := minSpacing_pos hP
  have hP1 := spacings_pos_step hP
  obtain ⟨hmin1, hfz1⟩ := frozenMin_step hP h
  obtain ⟨hmin2, _⟩ := frozenMin_step hP1 hfz1
  have hmin2' : minSpacing (stepKS (stepKS s)).2 = m := by rw [hmin2, hmin1]
  intro i
  rw [strideVec_def, hmin2']
  apply (strideOf_eq_one_iff hm _ _).2
  rintro ⟨hle, h8⟩
  -- abbreviations for the two intermediate strides of axis `i`
  have hsp0m : m ≤ s.2 i := minSpacing_le _ i
  have e1f := stepKS_fst s i
  have e1s := stepKS_snd s i
  have e2f := stepKS_fst (stepKS s) i
  have e2s := stepKS_snd (stepKS s) i
  rw [strideVec_def] at e1f e1s
  rw [strideVec_def, hmin1, ← hmdef] at e2f e2s
  rcases strideOf_one_or_two m (s.1 i) (s.2 i) with h0 | h0
  · -- first stride 1: the reason it was 1 persists
    have hsp1 : (stepKS s).2 i = s.2 i := by rw [e1s, h0]; norm_num
    have hsz1 : (stepKS s).1 i = s.1 i := by rw [e1f, h0]; norm_num
    have hn0 := (strideOf_eq_one_iff hm (s.1 i) (s.2 i)).1 h0
    rcases not_and_or.1 hn0 with hsp | hsz
    · -- spacing already above 2m: it never decreases
      push_neg at hsp
      rcases strideOf_one_or_two m ((stepKS s).1 i) ((stepKS s).2 i) with h1 | h1
      · have hsp2 : (stepKS (stepKS s)).2 i = s.2 i := by
          rw [e2s, h1, hsp1]; norm_num
        rw [hsp2] at hle
        linarith
      · have hsp2 : (stepKS (stepKS s)).2 i = s.2 i * 2 := by
          rw [e2s, h1, hsp1]; norm_num
        rw [hsp2] at hle
        linarith
    · -- size below 8: it stays below 8
      push_neg at hsz
      have h1 : strideOf m ((stepKS s).1 i) ((stepKS s).2 i) = 1 := by
        apply (strideOf_eq_one_iff hm _ _).2
        rintro ⟨_, hc⟩
        rw [hsz1] at hc
        linarith
      have hsz2 : (stepKS (stepKS s)).1 i = s.1 i := by
        rw [e2f, h1, hsz1]; norm_num
      rw [hsz2] at h8
      linarith
  · -- first stride 2
    obtain ⟨hsp0le, hsz0⟩ := (strideOf_eq_two_iff hm (s.1 i) (s.2 i)).1 h0
    have hsp1 : (stepKS s).2 i = s.2 i * 2 := by rw [e1s, h0]; norm_num
    have hsz1 : (stepKS s).1 i = s.1 i / 2 := by rw [e1f, h0]; norm_num
    rcases strideOf_one_or_two m ((stepKS s).1 i) ((stepKS s).2 i) with h1 | h1
    · -- second stride 1
      have hsp2 : (stepKS (stepKS s)).2 i = s.2 i * 2 := by
        rw [e2s, h1, hsp1]; norm_num
      have hsz2 : (stepKS (stepKS s)).1 i = s.1 i / 2 := by
        rw [e2f, h1, hsz1]; norm_num
      -- from the bound at the third step, the spacing was exactly m
      have hsp0 : s.2 i = m := by
        rw [hsp2] at hle
        linarith
      -- then the second stride could only be 1 because the size dropped
      have hn1 := (strideOf_eq_one_iff hm _ _).1 h1
      rcases not_and_or.1 hn1 with hsp | hsz
      · rw [hsp1, hsp0] at hsp
        push_neg at hsp
        linarith
      · push_neg at hsz
        rw [hsz2] at h8
        rw [hsz1] at hsz
        linarith
    · -- second stride 2: spacing is at least 4m, contradicting the bound
      have hsp2 : (stepKS (stepKS s)).2 i = s.2 i * 2 * 2 := by
        rw [e2s, h1, hsp1]; norm_num
      rw [hsp2] at hle
      linarith

lemma minAxis_step {n : ℕ} {s : (Fin (n + 1) → ℚ) × (Fin (n + 1) → ℚ)}
    (hP : ∀ i, 0 < s.2 i) (j : Fin (n + 1)) (hj : s.2 j = minSpacing s.2)
    (hsz : (8 : ℚ) ≤ s.1 j) :
    strideVec s.1 s.2 j = 2 ∧
      (FrozenMin (stepKS s) ∨ (stepKS s).2 j = minSpacing (stepKS s).2) := by
  set m := minSpacing s.2 with hmdef
  have hm : 0 < m := minSpacing_pos hP
  have hst : strideVec s.1 s.2 j = 2 := by
    rw [strideVec_def]
    exact (strideOf_eq_two_iff hm _ _).2 ⟨by rw [hj]; linarith, hsz⟩
  refine ⟨hst, ?_⟩
  obtain ⟨j', hj'⟩ := minSpacing_attained (stepKS s).2
  by_cases hfz : (stepKS s).1 j' < 8
  · exact Or.inl ⟨j', hj'.symm, hfz⟩
  · push_neg at hfz
    right
    have hup : (stepKS s).2 j = 2 * m := by
      rw [stepKS_snd, hst, hj]
      push_cast
      ring
    apply le_antisymm
    · -- the new minimum is at least 2m
      rw [hj']
      by_contra hlt
      push_neg at hlt
      rw [hup] at hlt
      have e1f := stepKS_fst s j'
      have e1s := stepKS_snd s j'
      rw [strideVec_def, ← hmdef] at e1f e1s
      rcases strideOf_one_or_two m (s.1 j') (s.2 j') with h1 | h1
      · -- axis j' did not stride, yet its ratio was small and its size large
        have hsp' : (stepKS s).2 j' = s.2 j' := by rw [e1s, h1]; norm_num
        have hsz' : (stepKS s).1 j' = s.1 j' := by rw [e1f, h1]; norm_num
        have := (strideOf_eq_one_iff hm (s.1 j') (s.2 j')).1 h1
        apply this
        constructor
        · rw [← hsp']; linarith
        · rw [← hsz']; exact hfz
      · -- axis j' strode, so its new spacing is at least 2m
        have hsp' : (stepKS s).2 j' = s.2 j' * 2 := by rw [e1s, h1]; norm_num
        have hge : m ≤ s.2 j' := minSpacing_le _ j'
        rw [hsp'] at hlt
        linarith
    · exact minSpacing_le _ j

lemma ks_termination_aux {n : ℕ} :
    ∀ (k : ℕ) (s : (Fin (n + 1) → ℚ) × (Fin (n + 1) → ℚ)),
      (∀ i, 0 < s.2 i) → ∀ j, s.2 j = minSpacing s.2 →
      s.1 j < 2 ^ (k + 3) →
      ∃ N ≤ k + 2, allStridesOne (stepKS^[N] s) := by
  intro k
  induction k with
  | zero =>
    intro s hP j hj hsz
    refine ⟨2, by omega, ?_⟩
    have h2 : stepKS^[2] s = stepKS (stepKS s) := by
      rw [Function.iterate_succ_apply', Function.iterate_one]
    rw [h2]
    exact frozenMin_allOnes hP ⟨j, hj, by norm_num at hsz; exact hsz⟩
  | succ k ih =>
    intro s hP j hj hsz
    by_cases h8 : s.1 j < 8
    · refine ⟨2, by omega, ?_⟩
      have h2 : stepKS^[2] s = stepKS (stepKS s) := by
        rw [Function.iterate_succ_apply', Function.iterate_one]
      rw [h2]
      exact frozenMin_allOnes hP ⟨j, hj, h8⟩
    · push_neg at h8
      obtain ⟨hst, hdisj⟩ := minAxis_step hP j hj h8
      have hP' := spacings_pos_step hP
      rcases hdisj with hfz | hmin'
      · refine ⟨3, by omega, ?_⟩
        have h3 : stepKS^[3] s = stepKS (stepKS (stepKS s)) := by
          rw [Function.iterate_succ_apply', Function.iterate_succ_apply',
            Function.iterate_one]
        rw [h3]
        exact frozenMin_allOnes hP' hfz
      · have hsz' : (stepKS s).1 j < 2 ^ (k + 3) := by
          rw [stepKS_fst, hst]
          push_cast
          rw [div_lt_iff₀ (by norm_num : (0 : ℚ) < 2)]
          calc s.1 j < 2 ^ (k + 1 + 3) := hsz
            _ = 2 ^ (k + 3) * 2 := by ring
        obtain ⟨N, hN, hall⟩ := ih (stepKS s) hP' j hmin' hsz'
        exact ⟨N + 1, by omega, by rw [Function.iterate_succ_apply]; exact hall⟩

/-! ## C8: concrete first stride layer and termination bound -/

/-- C8.  On spacings `[1,1,3]` and sizes `[64,64,20]` the first computed
stride layer (the entry after the prepended all-ones layer) is `[2,2,1]`;
and for all positive integer sizes and positive spacings the loop reaches
its break condition (an all-ones stride layer) within
`log2 (max size)` iterations. -/
theorem C8_kernel_stride_schedule :
    (get_kernels_strides 9 (fun i => ((![64, 64, 20] : Fin 3 → ℕ) i : ℚ))
        ![1, 1, 3]).2.getD 1 (fun _ => 0) = ![2, 2, 1] ∧
    ∀ (m : ℕ) (sizes : Fin (m + 1) → ℕ) (spacings : Fin (m + 1) → ℚ),
      (∀ i, 0 < sizes i) → (∀ i, 0 < spacings i) →
      ∃ N ≤ Nat.log2 (Finset.univ.sup sizes),
        allStridesOne (stepKS^[N] (fun i => (sizes i : ℚ), spacings)) := by
  constructor
  · with_unfolding_all decide
  · intro m sizes spacings hszpos hsppos
    set M := Finset.univ.sup sizes with hM
    by_cases hM8 : M < 8
    · refine ⟨0, Nat.zero_le _, ?_⟩
      rw [Function.iterate_zero_apply]
      intro i
      rw [strideVec_def]
      apply (strideOf_eq_one_iff (minSpacing_pos hsppos) _ _).2
      rintro ⟨_, h8⟩
      have hle : sizes i ≤ M := Finset.le_sup (Finset.mem_univ i)
      have hlt : ((sizes i : ℕ) : ℚ) < 8 := by
        exact_mod_cast (by omega : sizes i < 8)
      exact absurd h8 (not_le.2 hlt)
    · push_neg at hM8
      have hMne : M ≠ 0 := by omega
      have hlog3 : 3 ≤ Nat.log2 M := by
        rw [Nat.log2_eq_log_two]
        exact (Nat.pow_le_iff_le_log (by norm_num) hMne).1 (by norm_num; omega)
      have hMlt : M < 2 ^ (Nat.log2 M + 1) := by
        rw [Nat.log2_eq_log_two]
        exact Nat.lt_pow_succ_log_self (by norm_num) M
      obtain ⟨j, hj⟩ := minSpacing_attained spacings
      set k := Nat.log2 M - 2 with hk
      have hk3 : k + 3 = Nat.log2 M + 1 := by omega
      have hszj : ((sizes j : ℕ) : ℚ) < 2 ^ (k + 3) := by
        have h1 : sizes j ≤ M := Finset.le_sup (Finset.mem_univ j)
        have h2 : sizes j < 2 ^ (k + 3) := by rw [hk3]; omega
        calc ((sizes j : ℕ) : ℚ) < ((2 ^ (k + 3) : ℕ) : ℚ) := by exact_mod_cast h2
          _ = 2 ^ (k + 3) := by push_cast; ring
      obtain ⟨N, hN, hall⟩ := ks_termination_aux k
        ((fun i => ((sizes i : ℕ) : ℚ)), spacings) hsppos j hj.symm hszj
      exact ⟨N, by omega, hall⟩

/-- C8 witness: the termination bound applied to the concrete spec example
`sizes = [64,64,20]`, `spacings = [1,1,3]`. -/
theorem C8_witness :
    ∃ N ≤ Nat.log2 (Finset.univ.sup (![64, 64, 20] : Fin 3 → ℕ)),
      allStridesOne
        (stepKS^[N] (fun i => ((![64, 64, 20] : Fin 3 → ℕ) i : ℚ), ![1, 1, 3])) :=
  C8_kernel_stride_schedule.2 2 ![64, 64, 20] ![1, 1, 3]
    (by with_unfolding_all decide) (by with_unfolding_all decide)

/-! ## C10: structural invariants of the schedule -/

lemma ksLoop_length {n : ℕ} :
    ∀ (fuel : ℕ) (s : (Fin (n + 1) → ℚ) × (Fin (n + 1) → ℚ)),
      (ksLoop fuel s).1.length = (ksLoop fuel s).2.length := by
  intro fuel
  induction fuel with
  | zero => intro s; rfl
  | succ f ih =>
    intro s
    rw [ksLoop]
    split
    · rfl
    · simp only [List.length_cons]
      rw [ih (stepKS s)]

lemma ksLoop_stride_mem {n : ℕ} :
    ∀ (fuel : ℕ) (s : (Fin (n + 1) → ℚ) × (Fin (n + 1) → ℚ)),
      ∀ st ∈ (ksLoop fuel s).2, ∀ i, st i = 1 ∨ st i = 2 := by
  intro fuel
  induction fuel with
  | zero => intro s st hst; exact absurd hst (by simp [ksLoop])
  | succ f ih =>
    intro s st hst i
    rw [ksLoop] at hst
    split at hst
    · exact absurd hst (by simp)
    · rcases List.mem_cons.1 hst with h | h
      · rw [h, strideVec_def]
        exact strideOf_one_or_two _ _ _
      · exact ih (stepKS s) st h i

lemma ksLoop_kernel_mem {n : ℕ} :
    ∀ (fuel : ℕ) (s : (Fin (n + 1) → ℚ) × (Fin (n + 1) → ℚ)),
      ∀ kl ∈ (ksLoop fuel s).1, ∀ i, kl i = 1 ∨ kl i = 3 := by
  intro fuel
  induction fuel with
  | zero => intro s kl hkl; exact absurd hkl (by simp [ksLoop])
  | succ f ih =>
    intro s kl hkl i
    rw [ksLoop] at hkl
    split at hkl
    · exact absurd hkl (by simp)
    · rcases List.mem_cons.1 hkl with h | h
      · rw [h]
        exact kernelOf_one_or_three _ _
      · exact ih (stepKS s) kl h i

lemma foldl_pow_two {n : ℕ} :
    ∀ (l : List (Fin (n + 1) → ℕ)) (acc : Fin (n + 1) → ℕ),
      (∀ st ∈ l, ∀ i, st i = 1 ∨ st i = 2) → (∀ i, ∃ e, acc i = 2 ^ e) →
      ∀ i, ∃ e, (l.foldl (fun d st => fun i => d i * st i) acc) i = 2 ^ e := by
  intro l
  induction l with
  | nil => intro acc _ hacc i; simpa using hacc i
  | cons hd tl ih =>
    intro acc hmem hacc i
    rw [List.foldl_cons]
    apply ih _ (fun st hst => hmem st (List.mem_cons_of_mem _ hst))
    intro i2
    obtain ⟨e, he⟩ := hacc i2
    rcases hmem hd (List.mem_cons_self _ _) i2 with h1 | h2
    · exact ⟨e, by simp only [he, h1, mul_one]⟩
    · exact ⟨e + 1, by rw [he, h2, pow_succ]⟩

/-- C10.  For every fuel and every positive sizes/spacings vector, the
returned kernel and stride lists have equal length, every stride entry is
1 or 2, every kernel entry is 1 or 3, the first stride layer is all ones,
the last kernel layer is all threes, and the per-axis divisibility factor
computed by `get_divisible` is a power of two. -/
theorem C10_schedule_invariants (m fuel : ℕ)
    (sizes spacings : Fin (m + 1) → ℚ)
    (hsz : ∀ i, 0 < sizes i) (hsp : ∀ i, 0 < spacings i) :
    (get_kernels_strides fuel sizes spacings).1.length
        = (get_kernels_strides fuel sizes spacings).2.length ∧
    (∀ st ∈ (get_kernels_strides fuel sizes spacings).2,
      ∀ i, st i = 1 ∨ st i = 2) ∧
    (∀ kl ∈ (get_kernels_strides fuel sizes spacings).1,
      ∀ i, kl i = 1 ∨ kl i = 3) ∧
    (get_kernels_strides fuel sizes spacings).2.head? = some (fun _ => 1) ∧
    (get_kernels_strides fuel sizes spacings).1.getLast? = some (fun _ => 3) ∧
    (∀ i, ∃ e : ℕ,
      get_divisible (get_kernels_strides fuel sizes spacings).2 i = 2 ^ e) := by
  refine ⟨?_, ?_, ?_, rfl, ?_, ?_⟩
  · show ((ksLoop fuel (sizes, spacings)).1 ++ [fun _ => 3]).length
        = ((fun _ => 1) :: (ksLoop fuel (sizes, spacings)).2).length
    simp only [List.length_append, List.length_cons, List.length_nil]
    rw [ksLoop_length fuel (sizes, spacings)]
  · intro st hst i
    rcases List.mem_cons.1 hst with h | h
    · rw [h]; exact Or.inl rfl
    · exact ksLoop_stride_mem fuel (sizes, spacings) st h i
  · intro kl hkl i
    rcases List.mem_append.1 hkl with h | h
    · exact ksLoop_kernel_mem fuel (sizes, spacings) kl h i
    · rw [List.mem_singleton.1 h]; exact Or.inr rfl
  · show ((ksLoop fuel (sizes, spacings)).1 ++ [fun _ => 3]).getLast?
        = some (fun _ => 3)
    exact List.getLast?_concat _
  · intro i
    apply foldl_pow_two
    · intro st hst i2
      rcases List.mem_cons.1 hst with h | h
      · rw [h]; exact Or.inl rfl
      · exact ksLoop_stride_mem fuel (sizes, spacings) st h i2
    · intro i2; exact ⟨0, rfl⟩

/-- C10 witness: the invariants at the concrete spec example. -/
theorem C10_witness :
    (get_kernels_strides 9 (fun i => ((![64, 64, 20] : Fin 3 → ℕ) i : ℚ))
        ![1, 1, 3]).2.head? = some (fun _ => 1) :=
  (C10_schedule_invariants 2 9 (fun i => ((![64, 64, 20] : Fin 3 → ℕ) i : ℚ))
    ![1, 1, 3] (by with_unfolding_all decide)
    (by with_unfolding_all decide)).2.2.2.1

end GiniNet
